import Mathlib

/-!
Verification of the timeline synchronization and composition engine of the
Podcast-illustrator repository.

The development shallowly embeds the algorithmic core of the repository:

* `audio_processor_1.py` — `AudioProcessor.merge_transcripts` and the
  empty-input check of `AudioProcessor.process_audio` (the Segment
  Transcript Merger);
* `video_composer_1.py` — `VideoComposer.create_timeline`,
  `VideoComposer.fill_timeline_gaps`, `VideoComposer.load_visual_content`
  and the front part of `VideoComposer.compose_video` (the Visual
  Placement Normalizer, Timeline Builder and composition driver).

Python floats are modelled as rationals (`ℚ`); all constants appearing in
the code (5.0, 3.0, 0.5, 0.8, 0.1, 600) are exactly representable, and the
code performs only additions, subtractions, comparisons, `min` and `max`,
so the rational model computes the same values as the float code on
float-representable inputs.  Python dictionaries with a fixed key set are
modelled as structures; `dict.get(k, d)` on an optional key becomes
`Option.getD`.  Python's stable `list.sort(key=...)` is modelled by
`List.insertionSort` on the key order: insertion sort with a non-strict
key comparison is a stable sort, and any two stable sorts by the same key
agree extensionally.
-/

namespace PodcastIllustrator

/-! ## Data model: transcripts (audio_processor_1.py) -/

/-- A timestamped transcript line.  `start`/`end` in the Python dicts;
`end` is a Lean keyword, so the field is called `end'`. -/
structure TSeg where
  start : ℚ
  end' : ℚ
  text : String
deriving DecidableEq

/-- One per-chunk transcript as produced by `transcribe_segment`
(`audio_processor_1.py`, lines 84–101): `segment_index`, `text`,
`language`, `duration`, `segments`. -/
structure SegmentTranscript where
  segment_index : ℕ
  text : String
  language : String
  duration : ℚ
  segments : List TSeg
deriving DecidableEq

/-- The merged global transcript (`merge_transcripts`, lines 133–138). -/
structure MergedTranscript where
  total_duration : ℚ
  language : String
  full_text : String
  segments : List TSeg
deriving DecidableEq

/-- The initial value of `merged_transcript` in `merge_transcripts`
(lines 133–138): `transcripts[0]['language'] if transcripts else 'en'`. -/
def merge_init (transcripts : List SegmentTranscript) : MergedTranscript :=
  { total_duration := 0
    language := match transcripts.head? with
      | some t => t.language
      | none => "en"
    full_text := ""
    segments := [] }

/-- One iteration of the `for transcript in transcripts` loop of
`merge_transcripts` (lines 142–164): append to `full_text` (with a
separating space when non-empty), append the chunk's segments shifted by
`base_time = segment_index * segment_duration`, and fold `total_duration`
with `max`. -/
def merge_fold (segment_duration : ℚ) (merged : MergedTranscript)
    (transcript : SegmentTranscript) : MergedTranscript :=
  let base_time : ℚ := (transcript.segment_index : ℚ) * segment_duration
  let full_text :=
    (if merged.full_text = "" then merged.full_text else merged.full_text ++ " ")
      ++ transcript.text
  let segments := merged.segments ++
    transcript.segments.map (fun s =>
      { start := base_time + s.start, end' := base_time + s.end', text := s.text })
  let total_duration := max merged.total_duration (base_time + transcript.duration)
  { merged with
      full_text := full_text
      segments := segments
      total_duration := total_duration }

/-- The function `AudioProcessor.merge_transcripts` (audio_processor_1.py, lines
131–166). -/
def merge_transcripts (transcripts : List SegmentTranscript)
    (segment_duration : ℚ) : MergedTranscript :=
  transcripts.foldl (merge_fold segment_duration) (merge_init transcripts)

/-- The merge step of `AudioProcessor.process_audio` (audio_processor_1.py,
lines 177–184): `if not transcripts: raise Exception("No segments were
successfully transcribed")`, otherwise merge.  The raised exception is
modelled as `Except.error` with the exception's message. -/
def process_merge (transcripts : List SegmentTranscript)
    (segment_duration : ℚ) : Except String MergedTranscript :=
  if transcripts = [] then
    Except.error "No segments were successfully transcribed"
  else
    Except.ok (merge_transcripts transcripts segment_duration)

/-! ## Data model: visual content (video_composer_1.py) -/

/-- A raw image/video record from `visual_content_manifest.json` as read by
`create_timeline`: `path` is accessed unconditionally (`image['path']`),
while `timestamp`, `relevance_score` and `description` are read with
`.get(...)` defaults, hence optional here. -/
structure RawRecord where
  path : String
  timestamp : Option ℚ
  relevance_score : Option ℚ
  description : Option String
deriving DecidableEq

/-- The `type` tag of normalized content and timeline entries. -/
inductive ContentType
  | image
  | video
  | background
deriving DecidableEq

/-- A normalized placement, the dicts collected in `all_content`
(`create_timeline`, lines 69–91). -/
structure Content where
  type : ContentType
  path : String
  timestamp : ℚ
  relevance_score : ℚ
  description : String
  duration : ℚ
deriving DecidableEq

/-- A timeline entry (`create_timeline`, lines 103–111, and the filler
entries of `fill_timeline_gaps`).  `path` is `none` for the synthesized
background entry whose Python `path` is `None`. -/
structure Entry where
  type : ContentType
  path : Option String
  start_time : ℚ
  end_time : ℚ
  duration : ℚ
  description : String
  relevance_score : ℚ
deriving DecidableEq

/-- The constant `self.default_image_duration = 5.0` (video_composer_1.py, line 23). -/
def default_image_duration : ℚ := 5

/-- The `all_content` list built by the two accumulation loops of
`create_timeline` (video_composer_1.py, lines 69–91): every image record
becomes a dict with `type='image'`, duration `default_image_duration`,
`timestamp` defaulting to 0, `relevance_score` defaulting to 0.5 and
`description` defaulting to `''`; every video record becomes a dict with
`type='video'`, duration 3.0 and `relevance_score` defaulting to 0.8. -/
def all_content (visual_images visual_videos : List RawRecord) : List Content :=
  let c1 := visual_images.foldl (fun acc image =>
    acc ++ [{ type := ContentType.image
              path := image.path
              timestamp := image.timestamp.getD 0
              relevance_score := image.relevance_score.getD (1/2)
              description := image.description.getD ""
              duration := default_image_duration }]) []
  visual_videos.foldl (fun acc video =>
    acc ++ [{ type := ContentType.video
              path := video.path
              timestamp := video.timestamp.getD 0
              relevance_score := video.relevance_score.getD (4/5)
              description := video.description.getD ""
              duration := 3 }]) c1

/-- Key order used by `all_content.sort(key=lambda x: x['timestamp'])`. -/
def tsle (a b : Content) : Prop := a.timestamp ≤ b.timestamp

instance : DecidableRel tsle := fun a b =>
  inferInstanceAs (Decidable (a.timestamp ≤ b.timestamp))

/-- The sort `all_content.sort(key=lambda x: x['timestamp'])` (line 94).  Python's
sort is stable; `List.insertionSort` with the non-strict key comparison is
a stable sort, and all stable sorts by the same key agree extensionally,
so this is a faithful model of the sorted list. -/
def sort_by_timestamp (l : List Content) : List Content :=
  List.insertionSort tsle l

/-- One iteration of the assignment loop of `create_timeline` (lines
97–112): `start_time = max(timestamp, current_time)`, `end_time =
min(start_time + duration, total_duration)`, append only when
`end_time > start_time`, and then advance `current_time = end_time`. -/
def timeline_step (total_duration : ℚ) (acc : List Entry × ℚ)
    (content : Content) : List Entry × ℚ :=
  let start_time := max content.timestamp acc.2
  let end_time := min (start_time + content.duration) total_duration
  if start_time < end_time then
    (acc.1 ++ [{ type := content.type
                 path := some content.path
                 start_time := start_time
                 end_time := end_time
                 duration := end_time - start_time
                 description := content.description
                 relevance_score := content.relevance_score }], end_time)
  else acc

/-- The synthesized background entry of `fill_timeline_gaps` (lines
142–150). -/
def background_entry (a b : ℚ) : Entry :=
  { type := ContentType.background
    path := none
    start_time := a
    end_time := b
    duration := b - a
    description := "Background"
    relevance_score := 1/10 }

/-- One iteration of the `for segment in timeline` loop of
`fill_timeline_gaps` (lines 127–153): when `segment['start_time'] >
current_time`, first append a gap filler — a copy of
`filled_timeline[-1]` with new `start_time`/`end_time`/`duration` when
`filled_timeline` is non-empty, else a background entry — then append the
segment itself and advance the cursor to its `end_time`. -/
def fill_step (acc : List Entry × ℚ) (segment : Entry) : List Entry × ℚ :=
  let filled := acc.1
  let current_time := acc.2
  let filled1 :=
    if current_time < segment.start_time then
      match filled.getLast? with
      | some last =>
          filled ++ [{ last with
                        start_time := current_time
                        end_time := segment.start_time
                        duration := segment.start_time - current_time }]
      | none =>
          filled ++ [background_entry current_time segment.start_time]
    else filled
  (filled1 ++ [segment], segment.end_time)

/-- The function `VideoComposer.fill_timeline_gaps` (video_composer_1.py, lines
119–165): an empty timeline is returned unchanged; otherwise the gaps are
filled by the loop above and, when the final cursor is still below
`total_duration` and the filled list is non-empty, a final copy of the
last entry spanning the remaining time is appended. -/
def fill_timeline_gaps (timeline : List Entry) (total_duration : ℚ) :
    List Entry :=
  if timeline = [] then timeline
  else
    let res := timeline.foldl fill_step ([], 0)
    if res.2 < total_duration then
      match res.1.getLast? with
      | some last =>
          res.1 ++ [{ last with
                       start_time := res.2
                       end_time := total_duration
                       duration := total_duration - res.2 }]
      | none => res.1
    else res.1

/-- The function `VideoComposer.create_timeline` (video_composer_1.py, lines 63–117),
with `visual_content.get('images', [])`, `visual_content.get('videos',
[])` and `transcript.get('total_duration', 0)` passed as arguments:
normalize, sort stably by timestamp, run the assignment loop from cursor
0, then fill gaps. -/
def create_timeline (visual_images visual_videos : List RawRecord)
    (total_duration : ℚ) : List Entry :=
  let sorted := sort_by_timestamp (all_content visual_images visual_videos)
  let res := sorted.foldl (timeline_step total_duration) ([], 0)
  fill_timeline_gaps res.1 total_duration

/-! ## Composition driver (video_composer_1.py) -/

/-- The visual-content manifest: the `images`/`videos` lists of
`visual_content_manifest.json`. -/
structure VisualContent where
  images : List RawRecord
  videos : List RawRecord
deriving DecidableEq

/-- The function `VideoComposer.load_visual_content` (lines 54–61): the manifest file
is modelled as `Option VisualContent` (`none` = file absent); an absent
file yields `{'images': [], 'videos': []}`. -/
def load_visual_content (manifest : Option VisualContent) : VisualContent :=
  match manifest with
  | none => { images := [], videos := [] }
  | some m => m

/-- The error message raised at video_composer_1.py line 304. -/
def no_visual_content_msg : String :=
  "No visual content available for video composition"

/-- The front part of `VideoComposer.compose_video` (lines 291–312): load
the manifest, raise when both content lists are empty, otherwise build
the timeline and hand it to the rendering stages.  The second component
records which pipeline stages run after the check, in order; on the
no-visual-content error it is empty, matching the code where the
exception at line 304 is raised before `create_timeline` (line 308) and
before any encoder-invoking stage (lines 312–322). -/
def compose_video (manifest : Option VisualContent) (total_duration : ℚ) :
    Except String (List Entry) × List String :=
  let visual_content := load_visual_content manifest
  if visual_content.images = [] ∧ visual_content.videos = [] then
    (Except.error no_visual_content_msg, [])
  else
    let timeline := create_timeline visual_content.images
      visual_content.videos total_duration
    (Except.ok timeline,
      ["create_timeline", "prepare_video_segments", "concatenate_videos",
       "add_audio_to_video"])

/-! ## Claim-side definitions

These definitions transcribe the wording of spec claims (for refinement
statements); they are compared against the source-derived definitions
above. -/

/-- From the spec's normalizer contract: an image record becomes a
placement of kind image with intrinsic duration 5.0; missing timestamp
defaults to 0, missing relevance to 0.5 (description defaults to the
empty string). -/
def normalize_image (image : RawRecord) : Content :=
  { type := ContentType.image
    path := image.path
    timestamp := image.timestamp.getD 0
    relevance_score := image.relevance_score.getD (1/2)
    description := image.description.getD ""
    duration := 5 }

/-- From the spec's normalizer contract: a video record becomes a
placement of kind video with intrinsic duration 3.0; missing timestamp
defaults to 0, missing relevance to 0.8. -/
def normalize_video (video : RawRecord) : Content :=
  { type := ContentType.video
    path := video.path
    timestamp := video.timestamp.getD 0
    relevance_score := video.relevance_score.getD (4/5)
    description := video.description.getD ""
    duration := 3 }

/-- From the drop-policy claim: sequentially assign each placement
`start_time = max(timestamp, cursor)` and `end_time = min(start_time +
duration, total)`; a placement with `end_time ≤ start_time` contributes
no entry and does not advance the cursor; every other placement appears,
truncated, in input order, and advances the cursor to its `end_time`.
Returns the entries together with the final cursor. -/
def assign_rec (total : ℚ) : List Content → ℚ → List Entry × ℚ
  | [], cursor => ([], cursor)
  | c :: cs, cursor =>
    let s := max c.timestamp cursor
    let e := min (s + c.duration) total
    if s < e then
      let r := assign_rec total cs e
      ({ type := c.type
         path := some c.path
         start_time := s
         end_time := e
         duration := e - s
         description := c.description
         relevance_score := c.relevance_score } :: r.1, r.2)
    else assign_rec total cs cursor

/-- From the gap-closing claim: the filler covering `[a, b)` duplicates
the previous real entry (same kind, path, description, relevance) when
one exists, and is a Background entry with no source path otherwise. -/
def filler_from (prev : Option Entry) (a b : ℚ) : Entry :=
  match prev with
  | some p => { p with start_time := a, end_time := b, duration := b - a }
  | none => background_entry a b

/-- From the gap-closing claim, the pass over the remaining entries:
every gap between the cursor and the next entry's `start_time` is covered
by `filler_from` of the previous real entry, and when the cursor is still
below `total` after all entries, one final filler ending exactly at
`total` is appended. -/
def fill_gaps_claim_go (total : ℚ) :
    Option Entry → ℚ → List Entry → List Entry
  | prev, cursor, [] =>
      if cursor < total then [filler_from prev cursor total] else []
  | prev, cursor, s :: ss =>
      (if cursor < s.start_time then [filler_from prev cursor s.start_time]
       else [])
        ++ s :: fill_gaps_claim_go total (some s) s.end_time ss

/-- The gap-closing pass as described by the claim, started with no
previous entry and cursor 0. -/
def fill_gaps_claim (timeline : List Entry) (total : ℚ) : List Entry :=
  fill_gaps_claim_go total none 0 timeline

/-! ## Structural invariants used in the proofs -/

/-- Well-formedness of an entry list relative to a running cursor:
each entry starts no earlier than the cursor, has positive width, records
its width in `duration`, ends within `total`, and moves the cursor to its
end. -/
def entries_wf (total : ℚ) : ℚ → List Entry → Prop
  | _, [] => True
  | cursor, e :: es =>
      cursor ≤ e.start_time ∧ e.start_time < e.end_time ∧
        e.duration = e.end_time - e.start_time ∧ e.end_time ≤ total ∧
        entries_wf total e.end_time es

/-- Predicate `covers a b l`: the entries of `l` tile the interval from `a` to `b`
exactly — consecutive, positive-width, first starting at `a`, last ending
at `b` (an empty list is allowed only when `a = b`), with `duration`
recording the width. -/
def covers : ℚ → ℚ → List Entry → Prop
  | a, b, [] => a = b
  | a, b, e :: es =>
      e.start_time = a ∧ a < e.end_time ∧
        e.duration = e.end_time - e.start_time ∧ covers e.end_time b es

/-- The global-timestamp shift applied by `merge_transcripts` to the
local transcript lines of chunk `t`: add `segmentIndex * D`. -/
def shift_seg (D : ℚ) (t : SegmentTranscript) (s : TSeg) : TSeg :=
  { start := (t.segment_index : ℚ) * D + s.start
    end' := (t.segment_index : ℚ) * D + s.end'
    text := s.text }

/-! ## Helper lemmas -/

theorem list_foldl_concat {α β : Type} (f : α → β) :
    ∀ (l : List α) (acc : List β),
      l.foldl (fun a x => a ++ [f x]) acc = acc ++ l.map f := by
  intro l
  induction l with
  | nil => simp
  | cons x xs ih => intro acc; simp [ih]

theorem all_content_eq (visual_images visual_videos : List RawRecord) :
    all_content visual_images visual_videos =
      visual_images.map normalize_image ++ visual_videos.map normalize_video := by
  simp only [all_content]
  rw [list_foldl_concat, list_foldl_concat]
  rfl

theorem merge_fold_language (D : ℚ) :
    ∀ (ts : List SegmentTranscript) (m : MergedTranscript),
      (ts.foldl (merge_fold D) m).language = m.language := by
  intro ts
  induction ts with
  | nil => intro m; rfl
  | cons t ts ih => intro m; simpa using ih (merge_fold D m t)

theorem merge_fold_segments (D : ℚ) :
    ∀ (ts : List SegmentTranscript) (m : MergedTranscript),
      (ts.foldl (merge_fold D) m).segments =
        m.segments ++ (ts.map (fun t => t.segments.map (shift_seg D t))).flatten := by
  intro ts
  induction ts with
  | nil => intro m; simp
  | cons t ts ih =>
      intro m
      simp only [List.foldl_cons, ih, List.map_cons, List.flatten_cons]
      simp [merge_fold, shift_seg]

theorem merge_fold_total (D : ℚ) :
    ∀ (ts : List SegmentTranscript) (m : MergedTranscript),
      (ts.foldl (merge_fold D) m).total_duration =
        ts.foldl (fun a t => max a ((t.segment_index : ℚ) * D + t.duration))
          m.total_duration := by
  intro ts
  induction ts with
  | nil => intro m; rfl
  | cons t ts ih => intro m; simp [List.foldl_cons, ih, merge_fold]

theorem foldl_max_le_init : ∀ (l : List ℚ) (c : ℚ), c ≤ l.foldl max c := by
  intro l
  induction l with
  | nil => intro c; simp
  | cons x xs ih =>
      intro c
      exact le_trans (le_max_left c x) (ih (max c x))

theorem foldl_max_le_of_mem :
    ∀ (l : List ℚ) (c x : ℚ), x ∈ l → x ≤ l.foldl max c := by
  intro l
  induction l with
  | nil => intro c x hx; simp at hx
  | cons y ys ih =>
      intro c x hx
      rcases List.mem_cons.mp hx with h | h
      · subst h
        exact le_trans (le_max_right c x) (foldl_max_le_init ys (max c x))
      · exact ih (max c y) x h

theorem foldl_max_cases :
    ∀ (l : List ℚ) (c : ℚ), l.foldl max c = c ∨ l.foldl max c ∈ l := by
  intro l
  induction l with
  | nil => intro c; exact Or.inl rfl
  | cons x xs ih =>
      intro c
      rcases ih (max c x) with h | h
      · rcases max_choice c x with hc | hc
        · exact Or.inl (by rw [List.foldl_cons, h, hc])
        · exact Or.inr (by rw [List.foldl_cons, h, hc]; exact List.mem_cons_self x xs)
      · exact Or.inr (List.mem_cons_of_mem x h)

theorem foldl_timeline_step (total : ℚ) :
    ∀ (l : List Content) (acc : List Entry) (cursor : ℚ),
      l.foldl (timeline_step total) (acc, cursor) =
        (acc ++ (assign_rec total l cursor).1, (assign_rec total l cursor).2) := by
  intro l
  induction l with
  | nil => intro acc cursor; simp [assign_rec]
  | cons c cs ih =>
      intro acc cursor
      simp only [List.foldl_cons, timeline_step, assign_rec]
      by_cases h :
          max c.timestamp cursor <
            min (max c.timestamp cursor + c.duration) total
      · simp only [if_pos h, ih]
        simp
      · simp only [if_neg h, ih]

theorem create_timeline_eq_fill_assign
    (visual_images visual_videos : List RawRecord) (total : ℚ) :
    create_timeline visual_images visual_videos total =
      fill_timeline_gaps
        (assign_rec total
          (sort_by_timestamp (all_content visual_images visual_videos)) 0).1
        total := by
  simp [create_timeline, foldl_timeline_step]

theorem assign_rec_wf (total : ℚ) :
    ∀ (l : List Content) (cursor : ℚ),
      entries_wf total cursor (assign_rec total l cursor).1 := by
  intro l
  induction l with
  | nil => intro cursor; simp [assign_rec, entries_wf]
  | cons c cs ih =>
      intro cursor
      simp only [assign_rec]
      by_cases h :
          max c.timestamp cursor <
            min (max c.timestamp cursor + c.duration) total
      · simp only [if_pos h]
        exact ⟨le_max_right _ _, h, rfl, min_le_right _ _, ih _⟩
      · simp only [if_neg h]
        exact ih cursor

theorem entries_wf_mem (total : ℚ) :
    ∀ (l : List Entry) (cursor : ℚ), entries_wf total cursor l →
      ∀ e ∈ l, cursor ≤ e.start_time ∧ e.start_time < e.end_time ∧
        e.duration = e.end_time - e.start_time ∧ e.end_time ≤ total := by
  intro l
  induction l with
  | nil => intro cursor _ e he; simp at he
  | cons f fs ih =>
      intro cursor hwf e he
      obtain ⟨h1, h2, h3, h4, h5⟩ := hwf
      rcases List.mem_cons.mp he with rfl | he'
      · exact ⟨h1, h2, h3, h4⟩
      · have h := ih f.end_time h5 e he'
        exact ⟨le_trans (le_trans h1 (le_of_lt h2)) h.1, h.2.1, h.2.2.1, h.2.2.2⟩

theorem entries_wf_pairwise (total : ℚ) :
    ∀ (l : List Entry) (cursor : ℚ), entries_wf total cursor l →
      l.Pairwise (fun a b => a.end_time ≤ b.start_time) := by
  intro l
  induction l with
  | nil => intro _ _; exact List.Pairwise.nil
  | cons f fs ih =>
      intro cursor hwf
      obtain ⟨h1, h2, h3, h4, h5⟩ := hwf
      refine List.Pairwise.cons ?_ (ih f.end_time h5)
      intro b hb
      exact (entries_wf_mem total fs f.end_time h5 b hb).1

/-! ## Claims -/

/-- C7: Normalization is a pure projection: every raw image record becomes
a placement with intrinsic duration 5.0 and every raw video record a
placement with intrinsic duration 3.0; a missing timestamp defaults to 0,
a missing relevance defaults to 0.5 for images and 0.8 for videos; no
input record is filtered out and no other field is transformed.  The
claimed projection is `normalize_image`/`normalize_video`, transcribed
from the spec's words; `all_content` is the code's accumulation loop. -/
theorem all_content_pure_projection
    (visual_images visual_videos : List RawRecord) :
    all_content visual_images visual_videos =
      visual_images.map normalize_image ++ visual_videos.map normalize_video ∧
    (all_content visual_images visual_videos).length =
      visual_images.length + visual_videos.length := by
  refine ⟨all_content_eq visual_images visual_videos, ?_⟩
  rw [all_content_eq]
  simp

/-- C6: Merging takes the output language from the first input
SegmentTranscript; the merge step of `process_audio` fails with the
no-segments error when the list of successfully transcribed segments is
empty and succeeds whenever at least one segment is present. -/
theorem merge_language_and_empty_failure (t : SegmentTranscript)
    (ts : List SegmentTranscript) (D : ℚ) :
    process_merge [] D =
      Except.error "No segments were successfully transcribed" ∧
    process_merge (t :: ts) D = Except.ok (merge_transcripts (t :: ts) D) ∧
    (merge_transcripts (t :: ts) D).language = t.language := by
  refine ⟨rfl, by simp [process_merge], ?_⟩
  have h := merge_fold_language D (t :: ts) (merge_init (t :: ts))
  simpa [merge_transcripts, merge_init] using h

/-- C10: When the visual-content manifest file is absent,
`load_visual_content` returns the empty manifest, and `compose_video`
then fails with the no-visual-content error with no pipeline stage
(timeline construction, segment rendering, concatenation, audio muxing)
having run. -/
theorem compose_video_missing_manifest (total_duration : ℚ) :
    load_visual_content none = { images := [], videos := [] } ∧
    compose_video none total_duration =
      (Except.error no_visual_content_msg, []) :=
  ⟨rfl, rfl⟩

/-- C4: every TranscriptSegment in the output of `merge_transcripts` has
`start`/`end` equal to its source local value plus `segmentIndex * D`,
and — when the input transcripts are ordered by strictly increasing
index, each transcript's local segments are sorted and local times lie
within the chunk duration — the output `segments` sequence is sorted by
`start`. -/
theorem merge_transcripts_offsets_sorted (ts : List SegmentTranscript)
    (D : ℚ) (hD : 0 ≤ D)
    (hidx : ts.Pairwise (fun a b => a.segment_index < b.segment_index))
    (hloc : ∀ t ∈ ts,
      (∀ s ∈ t.segments, 0 ≤ s.start ∧ s.start ≤ s.end' ∧ s.end' ≤ D) ∧
        t.segments.Pairwise (fun x y => x.start ≤ y.start)) :
    (merge_transcripts ts D).segments =
      (ts.map (fun t => t.segments.map (shift_seg D t))).flatten ∧
    (merge_transcripts ts D).segments.Pairwise
      (fun x y => x.start ≤ y.start) := by
  have heq : (merge_transcripts ts D).segments =
      (ts.map (fun t => t.segments.map (shift_seg D t))).flatten := by
    have h := merge_fold_segments D ts (merge_init ts)
    simpa [merge_transcripts, merge_init] using h
  refine ⟨heq, ?_⟩
  rw [heq]
  rw [List.pairwise_flatten]
  constructor
  · intro l hl
    rcases List.mem_map.mp hl with ⟨t, ht, rfl⟩
    rw [List.pairwise_map]
    refine ((hloc t ht).2).imp ?_
    intro a b hxy
    simp only [shift_seg]
    exact add_le_add_left hxy ((t.segment_index : ℚ) * D)
  · rw [List.pairwise_map]
    refine hidx.imp_of_mem ?_
    intro t1 t2 ht1 ht2 hlt x hx y hy
    rcases List.mem_map.mp hx with ⟨s1, hs1, rfl⟩
    rcases List.mem_map.mp hy with ⟨s2, hs2, rfl⟩
    have h1 := ((hloc t1 ht1).1 s1 hs1)
    have h2 := ((hloc t2 ht2).1 s2 hs2)
    have hcast : (t1.segment_index : ℚ) + 1 ≤ (t2.segment_index : ℚ) := by
      exact_mod_cast Nat.succ_le_of_lt hlt
    have key : ((t1.segment_index : ℚ) + 1) * D ≤ (t2.segment_index : ℚ) * D :=
      mul_le_mul_of_nonneg_right hcast hD
    rw [add_mul, one_mul] at key
    simp only [shift_seg]
    linarith [h1.1, h1.2.1, h1.2.2, h2.1]

/-- Witness for C4 at the spec's concrete scenario: two transcripts with
`D = 600`, chunk 0 holding `{start=5, end=8}` and chunk 1 holding
`{start=2, end=4}`. -/
theorem merge_transcripts_offsets_sorted_witness :
    (merge_transcripts
        [{ segment_index := 0, text := "a", language := "en", duration := 600,
           segments := [{ start := 5, end' := 8, text := "x" }] },
         { segment_index := 1, text := "b", language := "en", duration := 4,
           segments := [{ start := 2, end' := 4, text := "y" }] }] 600).segments =
      ([[{ start := 5, end' := 8, text := "x" }],
        [{ start := 602, end' := 604, text := "y" }]] :
          List (List TSeg)).flatten ∧
    (merge_transcripts
        [{ segment_index := 0, text := "a", language := "en", duration := 600,
           segments := [{ start := 5, end' := 8, text := "x" }] },
         { segment_index := 1, text := "b", language := "en", duration := 4,
           segments := [{ start := 2, end' := 4, text := "y" }] }] 600).segments.Pairwise
      (fun x y => x.start ≤ y.start) := by
  have h := merge_transcripts_offsets_sorted
    [{ segment_index := 0, text := "a", language := "en", duration := 600,
       segments := [{ start := 5, end' := 8, text := "x" }] },
     { segment_index := 1, text := "b", language := "en", duration := 4,
       segments := [{ start := 2, end' := 4, text := "y" }] }] 600
    (by decide) (by decide) (by decide)
  refine ⟨?_, h.2⟩
  rw [h.1]
  norm_num [shift_seg]

/-- C5: for a non-empty transcript list, the merged `total_duration` is
the maximum over the inputs of `segmentIndex * D + duration`: it is one
of those values and bounds all of them. -/
theorem merge_transcripts_total_duration_max (ts : List SegmentTranscript)
    (D : ℚ) (hne : ts ≠ []) (hD : 0 ≤ D)
    (hdur : ∀ t ∈ ts, 0 ≤ t.duration) :
    (merge_transcripts ts D).total_duration ∈
      ts.map (fun t => (t.segment_index : ℚ) * D + t.duration) ∧
    ∀ x ∈ ts.map (fun t => (t.segment_index : ℚ) * D + t.duration),
      x ≤ (merge_transcripts ts D).total_duration := by
  have htot : (merge_transcripts ts D).total_duration =
      (ts.map (fun t => (t.segment_index : ℚ) * D + t.duration)).foldl max 0 := by
    have h := merge_fold_total D ts (merge_init ts)
    rw [List.foldl_map]
    simpa [merge_transcripts, merge_init] using h
  have hnonneg : ∀ x ∈ ts.map (fun t => (t.segment_index : ℚ) * D + t.duration),
      0 ≤ x := by
    intro x hx
    rcases List.mem_map.mp hx with ⟨t, ht, rfl⟩
    have : (0 : ℚ) ≤ (t.segment_index : ℚ) * D :=
      mul_nonneg (by positivity) hD
    linarith [hdur t ht]
  constructor
  · rcases foldl_max_cases
        (ts.map (fun t => (t.segment_index : ℚ) * D + t.duration)) 0 with h | h
    · rcases List.exists_mem_of_ne_nil ts hne with ⟨t0, ht0⟩
      have hm : (t0.segment_index : ℚ) * D + t0.duration ∈
          ts.map (fun t => (t.segment_index : ℚ) * D + t.duration) :=
        List.mem_map_of_mem _ ht0
      have hle := foldl_max_le_of_mem _ 0 _ hm
      have hge := hnonneg _ hm
      rw [h] at hle
      have : (t0.segment_index : ℚ) * D + t0.duration = 0 := le_antisymm hle hge
      rw [htot, h, ← this]
      exact hm
    · rw [htot]; exact h
  · intro x hx
    rw [htot]
    exact foldl_max_le_of_mem _ 0 x hx

/-- Witness for C5 at a concrete two-chunk input with `D = 600`. -/
theorem merge_transcripts_total_duration_max_witness :
    (merge_transcripts
        [{ segment_index := 0, text := "a", language := "en", duration := 600,
           segments := [] },
         { segment_index := 1, text := "b", language := "en", duration := 4,
           segments := [] }] 600).total_duration ∈
      ([{ segment_index := 0, text := "a", language := "en", duration := 600,
          segments := [] },
        { segment_index := 1, text := "b", language := "en", duration := 4,
          segments := [] }] : List SegmentTranscript).map
        (fun t => (t.segment_index : ℚ) * 600 + t.duration) ∧
    ∀ x ∈ ([{ segment_index := 0, text := "a", language := "en", duration := 600,
              segments := [] },
            { segment_index := 1, text := "b", language := "en", duration := 4,
              segments := [] }] : List SegmentTranscript).map
        (fun t => (t.segment_index : ℚ) * 600 + t.duration),
      x ≤ (merge_transcripts
        [{ segment_index := 0, text := "a", language := "en", duration := 600,
           segments := [] },
         { segment_index := 1, text := "b", language := "en", duration := 4,
           segments := [] }] 600).total_duration :=
  merge_transcripts_total_duration_max _ 600 (by simp) (by decide) (by decide)

/-- C3: the assignment loop of `create_timeline` drops exactly the
placements whose computed interval `[max(timestamp, cursor),
min(start + duration, totalDuration))` is empty — they contribute no
entry and do not advance the cursor — and emits every other placement in
input (sorted) order, truncated; consequently the emitted entries are
temporally ordered, never reordered.  `assign_rec` is the claim's
description of the loop; the left-hand side is the code's fold. -/
theorem timeline_assignment_drop_policy (l : List Content) (total : ℚ) :
    (l.foldl (timeline_step total) ([], 0)).1 = (assign_rec total l 0).1 ∧
    (l.foldl (timeline_step total) ([], 0)).1.Pairwise
      (fun a b => a.end_time ≤ b.start_time) := by
  have h := foldl_timeline_step total l [] 0
  constructor
  · simp [h]
  · have hp := entries_wf_pairwise total _ 0 (assign_rec_wf total l 0)
    simpa [h] using hp

theorem covers_le : ∀ (L : List Entry) (a b : ℚ), covers a b L → a ≤ b := by
  intro L
  induction L with
  | nil => intro a b h; exact le_of_eq h
  | cons f fs ih =>
      intro a b h
      obtain ⟨h1, h2, h3, h4⟩ := h
      exact le_trans (le_of_lt h2) (ih f.end_time b h4)

theorem covers_snoc : ∀ (L : List Entry) (a b : ℚ) (e : Entry),
    covers a b L → e.start_time = b → b < e.end_time →
    e.duration = e.end_time - e.start_time →
    covers a e.end_time (L ++ [e]) := by
  intro L
  induction L with
  | nil =>
      intro a b e hc h1 h2 h3
      exact ⟨h1.trans hc.symm, hc ▸ h2, h3, rfl⟩
  | cons f fs ih =>
      intro a b e hc h1 h2 h3
      obtain ⟨hf1, hf2, hf3, hf4⟩ := hc
      exact ⟨hf1, hf2, hf3, ih f.end_time b e hf4 h1 h2 h3⟩

theorem covers_mem : ∀ (L : List Entry) (a b : ℚ), covers a b L →
    ∀ e ∈ L, a ≤ e.start_time ∧ e.start_time < e.end_time ∧
      e.duration = e.end_time - e.start_time ∧ e.end_time ≤ b := by
  intro L
  induction L with
  | nil => intro a b _ e he; simp at he
  | cons f fs ih =>
      intro a b hc e he
      obtain ⟨hf1, hf2, hf3, hf4⟩ := hc
      rcases List.mem_cons.mp he with rfl | he'
      · exact ⟨le_of_eq hf1.symm, hf1 ▸ hf2, hf3, covers_le fs _ b hf4⟩
      · have h := ih f.end_time b hf4 e he'
        have : a ≤ f.end_time := le_of_lt hf2
        exact ⟨le_trans this h.1, h.2.1, h.2.2.1, h.2.2.2⟩

theorem covers_chain : ∀ (L : List Entry) (a b : ℚ), covers a b L →
    L.Chain' (fun x y => x.end_time = y.start_time) := by
  intro L
  induction L with
  | nil => intro a b _; exact List.chain'_nil
  | cons f fs ih =>
      intro a b hc
      obtain ⟨hf1, hf2, hf3, hf4⟩ := hc
      cases fs with
      | nil => exact List.chain'_singleton f
      | cons g gs =>
          rw [List.chain'_cons]
          have hg1 : g.start_time = f.end_time := hf4.1
          exact ⟨hg1.symm, ih f.end_time b hf4⟩

theorem covers_pairwise : ∀ (L : List Entry) (a b : ℚ), covers a b L →
    L.Pairwise (fun x y => x.end_time ≤ y.start_time) := by
  intro L
  induction L with
  | nil => intro a b _; exact List.Pairwise.nil
  | cons f fs ih =>
      intro a b hc
      obtain ⟨hf1, hf2, hf3, hf4⟩ := hc
      refine List.Pairwise.cons ?_ (ih f.end_time b hf4)
      intro y hy
      exact (covers_mem fs f.end_time b hf4 y hy).1

theorem covers_head_start : ∀ (L : List Entry) (a b : ℚ), covers a b L →
    L ≠ [] → L.head?.map Entry.start_time = some a := by
  intro L a b hc hne
  cases L with
  | nil => exact absurd rfl hne
  | cons f fs => simp [hc.1]

theorem covers_last_end : ∀ (L : List Entry) (a b : ℚ), covers a b L →
    L ≠ [] → L.getLast?.map Entry.end_time = some b := by
  intro L
  induction L with
  | nil => intro a b _ hne; exact absurd rfl hne
  | cons f fs ih =>
      intro a b hc _
      obtain ⟨hf1, hf2, hf3, hf4⟩ := hc
      cases fs with
      | nil =>
          have hb : f.end_time = b := hf4
          simp [List.getLast?, hb]
      | cons g gs =>
          rw [List.getLast?_cons_cons]
          exact ih f.end_time b hf4 (by simp)

theorem fill_fold_covers (total : ℚ) :
    ∀ (rest : List Entry) (filled : List Entry) (cursor : ℚ),
      covers 0 cursor filled → cursor ≤ total →
      entries_wf total cursor rest →
      covers 0 (rest.foldl fill_step (filled, cursor)).2
          (rest.foldl fill_step (filled, cursor)).1 ∧
      (rest.foldl fill_step (filled, cursor)).2 ≤ total ∧
      ((filled ≠ [] ∨ rest ≠ []) →
        (rest.foldl fill_step (filled, cursor)).1 ≠ []) := by
  intro rest
  induction rest with
  | nil =>
      intro filled cursor hc hle _
      simp only [List.foldl_nil]
      refine ⟨hc, hle, ?_⟩
      intro h
      rcases h with h | h
      · exact h
      · exact absurd rfl h
  | cons s ss ih =>
      intro filled cursor hc hle hwf
      obtain ⟨h1, h2, h3, h4, h5⟩ := hwf
      rw [List.foldl_cons]
      simp only [fill_step]
      by_cases hgap : cursor < s.start_time
      · rw [if_pos hgap]
        rcases hl : filled.getLast? with _ | last
        · have hfe : filled = [] := List.getLast?_eq_none_iff.mp hl
          subst hfe
          have hc0 : cursor = 0 := hc.symm
          have hcb : covers 0 s.start_time
              [background_entry cursor s.start_time] :=
            ⟨hc0, hc0 ▸ hgap, rfl, rfl⟩
          have hcov2 :=
            covers_snoc _ 0 s.start_time s hcb rfl h2 h3
          obtain ⟨c1, c2, c3⟩ :=
            ih ([background_entry cursor s.start_time] ++ [s]) s.end_time
              hcov2 h4 h5
          exact ⟨c1, c2, fun _ => c3 (Or.inl (by simp))⟩
        · have hcf := covers_snoc filled 0 cursor
            { last with
                start_time := cursor
                end_time := s.start_time
                duration := s.start_time - cursor } hc rfl hgap rfl
          have hcov2 := covers_snoc _ 0 s.start_time s hcf rfl h2 h3
          obtain ⟨c1, c2, c3⟩ :=
            ih ((filled ++
                [{ last with
                    start_time := cursor
                    end_time := s.start_time
                    duration := s.start_time - cursor }]) ++ [s])
              s.end_time hcov2 h4 h5
          exact ⟨c1, c2, fun _ => c3 (Or.inl (by simp))⟩
      · rw [if_neg hgap]
        have heq : s.start_time = cursor := le_antisymm (not_lt.mp hgap) h1
        have hcov2 := covers_snoc filled 0 cursor s hc heq (heq ▸ h2) h3
        obtain ⟨c1, c2, c3⟩ := ih (filled ++ [s]) s.end_time hcov2 h4 h5
        exact ⟨c1, c2, fun _ => c3 (Or.inl (by simp))⟩

theorem fill_timeline_gaps_covers (timeline : List Entry) (total : ℚ)
    (hne : timeline ≠ []) (htot : 0 ≤ total)
    (hwf : entries_wf total 0 timeline) :
    covers 0 total (fill_timeline_gaps timeline total) := by
  obtain ⟨hcov, hle, hnonnil⟩ :=
    fill_fold_covers total timeline [] 0 rfl htot hwf
  simp only [fill_timeline_gaps, if_neg hne]
  by_cases hlt : (timeline.foldl fill_step ([], 0)).2 < total
  · rw [if_pos hlt]
    have hN := hnonnil (Or.inr hne)
    obtain ⟨last, hl⟩ :
        ∃ last, (timeline.foldl fill_step ([], 0)).1.getLast? = some last := by
      rcases hgl : (timeline.foldl fill_step ([], 0)).1.getLast? with _ | last
      · exact absurd (List.getLast?_eq_none_iff.mp hgl) hN
      · exact ⟨last, rfl⟩
    rw [hl]
    exact covers_snoc (timeline.foldl fill_step ([], 0)).1 0
      (timeline.foldl fill_step ([], 0)).2
      { last with
          start_time := (timeline.foldl fill_step ([], 0)).2
          end_time := total
          duration := total - (timeline.foldl fill_step ([], 0)).2 }
      hcov rfl hlt rfl
  · rw [if_neg hlt]
    have heq : (timeline.foldl fill_step ([], 0)).2 = total :=
      le_antisymm hle (not_lt.mp hlt)
    exact heq ▸ hcov

theorem assign_rec_ne_nil (total : ℚ) :
    ∀ (l : List Content) (cursor : ℚ), cursor < total →
      (∃ c ∈ l, c.timestamp < total ∧ 0 < c.duration) →
      (assign_rec total l cursor).1 ≠ [] := by
  intro l
  induction l with
  | nil =>
      intro cursor _ hex
      rcases hex with ⟨c, hc, _⟩
      simp at hc
  | cons c cs ih =>
      intro cursor hcur hex
      simp only [assign_rec]
      by_cases h :
          max c.timestamp cursor <
            min (max c.timestamp cursor + c.duration) total
      · simp only [if_pos h]
        simp
      · simp only [if_neg h]
        rcases hex with ⟨c', hc', hts, hdur⟩
        rcases List.mem_cons.mp hc' with rfl | hmem
        · exact absurd
            (lt_min (lt_add_of_pos_right _ hdur) (max_lt hts hcur)) h
        · exact ih cursor hcur ⟨c', hmem, hts, hdur⟩

theorem assign_rec_nil_of_nonpos (total : ℚ) (htot : total ≤ 0) :
    ∀ (l : List Content) (cursor : ℚ), 0 ≤ cursor →
      (assign_rec total l cursor).1 = [] := by
  intro l
  induction l with
  | nil => intro cursor _; rfl
  | cons c cs ih =>
      intro cursor hcur
      simp only [assign_rec]
      have h : ¬ max c.timestamp cursor <
          min (max c.timestamp cursor + c.duration) total := by
        intro h
        have h1 : min (max c.timestamp cursor + c.duration) total ≤ total :=
          min_le_right _ _
        have h2 : (0 : ℚ) ≤ max c.timestamp cursor :=
          le_trans hcur (le_max_right _ _)
        linarith
      simp only [if_neg h]
      exact ih cursor hcur

theorem all_content_duration_pos
    (visual_images visual_videos : List RawRecord) :
    ∀ c ∈ all_content visual_images visual_videos, 0 < c.duration := by
  intro c hc
  rw [all_content_eq] at hc
  rcases List.mem_append.mp hc with h | h <;>
    rcases List.mem_map.mp h with ⟨r, _, rfl⟩
  · norm_num [normalize_image]
  · norm_num [normalize_video]

theorem mem_sort_by_timestamp (l : List Content) (c : Content) :
    c ∈ sort_by_timestamp l ↔ c ∈ l :=
  (List.perm_insertionSort tsle l).mem_iff

/-- C1 counterexample: a non-empty placement list (one image whose
timestamp, 10, lies at or beyond `totalDuration = 5 > 0`) for which
`create_timeline` returns the empty sequence — not a partition of
`[0, 5]`: the assignment loop drops the placement and the gap-filling
pass returns an empty timeline unchanged. -/
theorem create_timeline_counterexample :
    ([{ path := "late.png", timestamp := some 10, relevance_score := none,
        description := none }] : List RawRecord) ≠ [] ∧
    (0 : ℚ) < 5 ∧
    create_timeline
      [{ path := "late.png", timestamp := some 10, relevance_score := none,
         description := none }] [] 5 = [] := by
  refine ⟨by simp, by decide, ?_⟩
  norm_num [create_timeline, sort_by_timestamp, all_content,
    default_image_duration, List.insertionSort, List.orderedInsert, tsle,
    timeline_step, fill_timeline_gaps, fill_step, max_def, min_def]

/-- C1 (amended): for every placement list and `totalDuration > 0` such
that at least one normalized placement has `timestamp < totalDuration`
(the amendment: without such a placement every placement is dropped and
the returned timeline is empty), the timeline returned by
`create_timeline`, including the gap-filling pass, partitions
`[0, totalDuration]` exactly: it is non-empty, the first entry starts at
0, the last entry ends at `totalDuration`, consecutive entries are
contiguous, and no two entries overlap. -/
theorem create_timeline_partitions
    (visual_images visual_videos : List RawRecord) (total : ℚ)
    (htot : 0 < total)
    (hex : ∃ c ∈ all_content visual_images visual_videos,
      c.timestamp < total) :
    create_timeline visual_images visual_videos total ≠ [] ∧
    (create_timeline visual_images visual_videos total).head?.map
      Entry.start_time = some 0 ∧
    (create_timeline visual_images visual_videos total).getLast?.map
      Entry.end_time = some total ∧
    (create_timeline visual_images visual_videos total).Chain'
      (fun x y => x.end_time = y.start_time) ∧
    (create_timeline visual_images visual_videos total).Pairwise
      (fun x y => x.end_time ≤ y.start_time) := by
  have hex' : ∃ c ∈ sort_by_timestamp
      (all_content visual_images visual_videos),
      c.timestamp < total ∧ 0 < c.duration := by
    rcases hex with ⟨c, hc, hts⟩
    exact ⟨c, (mem_sort_by_timestamp _ c).mpr hc, hts,
      all_content_duration_pos _ _ c hc⟩
  have hpre := assign_rec_ne_nil total _ 0 htot hex'
  have hwf := assign_rec_wf total
    (sort_by_timestamp (all_content visual_images visual_videos)) 0
  have hcov := fill_timeline_gaps_covers _ total hpre (le_of_lt htot) hwf
  rw [create_timeline_eq_fill_assign]
  have hne : fill_timeline_gaps
      (assign_rec total
        (sort_by_timestamp (all_content visual_images visual_videos)) 0).1
      total ≠ [] := by
    intro h
    rw [h] at hcov
    have h0 : (0 : ℚ) = total := hcov
    linarith
  exact ⟨hne, covers_head_start _ 0 total hcov hne,
    covers_last_end _ 0 total hcov hne, covers_chain _ 0 total hcov,
    covers_pairwise _ 0 total hcov⟩

/-- Witness for C1 (amended) at one image with no explicit timestamp
(normalized timestamp 0) and `totalDuration = 5`. -/
theorem create_timeline_partitions_witness :
    (0 : ℚ) < 5 ∧
    (∃ c ∈ all_content
        [{ path := "a.png", timestamp := none, relevance_score := none,
           description := none }] [], c.timestamp < 5) ∧
    (create_timeline
        [{ path := "a.png", timestamp := none, relevance_score := none,
           description := none }] [] 5 ≠ [] ∧
      (create_timeline
        [{ path := "a.png", timestamp := none, relevance_score := none,
           description := none }] [] 5).head?.map Entry.start_time = some 0 ∧
      (create_timeline
        [{ path := "a.png", timestamp := none, relevance_score := none,
           description := none }] [] 5).getLast?.map Entry.end_time = some 5 ∧
      (create_timeline
        [{ path := "a.png", timestamp := none, relevance_score := none,
           description := none }] [] 5).Chain'
        (fun x y => x.end_time = y.start_time) ∧
      (create_timeline
        [{ path := "a.png", timestamp := none, relevance_score := none,
           description := none }] [] 5).Pairwise
        (fun x y => x.end_time ≤ y.start_time)) := by
  have h1 : (0 : ℚ) < 5 := by decide
  have h2 : ∃ c ∈ all_content
      [{ path := "a.png", timestamp := none, relevance_score := none,
         description := none }] [], c.timestamp < 5 := by
    refine ⟨normalize_image
      { path := "a.png", timestamp := none, relevance_score := none,
        description := none }, ?_, ?_⟩
    · simp [all_content_eq]
    · simp [normalize_image]
  exact ⟨h1, h2, create_timeline_partitions _ _ 5 h1 h2⟩

/-- C9: every entry of a timeline produced by `create_timeline` (with its
gap-filling pass) has `end_time` strictly greater than `start_time` and
`duration = end_time - start_time`, so no entry with non-positive
duration reaches the rendering stage. -/
theorem timeline_entries_positive_duration
    (visual_images visual_videos : List RawRecord) (total : ℚ) :
    ∀ e ∈ create_timeline visual_images visual_videos total,
      e.start_time < e.end_time ∧
        e.duration = e.end_time - e.start_time := by
  intro e he
  rw [create_timeline_eq_fill_assign] at he
  by_cases hpre : (assign_rec total
      (sort_by_timestamp (all_content visual_images visual_videos)) 0).1 = []
  · rw [hpre] at he
    simp [fill_timeline_gaps] at he
  · have htot : (0 : ℚ) ≤ total := by
      by_contra hneg
      push_neg at hneg
      exact hpre
        (assign_rec_nil_of_nonpos total (le_of_lt hneg) _ 0 le_rfl)
    have hcov := fill_timeline_gaps_covers _ total hpre htot
      (assign_rec_wf total _ 0)
    have h := covers_mem _ 0 total hcov e he
    exact ⟨h.2.1, h.2.2.1⟩

/-- Witness for C9: the first entry of a concrete two-entry timeline. -/
theorem timeline_entries_positive_duration_witness :
    ({ type := ContentType.image, path := some "a.png", start_time := 0,
       end_time := 5, duration := 5, description := "",
       relevance_score := 1/2 } : Entry) ∈
      create_timeline
        [{ path := "a.png", timestamp := none, relevance_score := none,
           description := none }] [] 10 ∧
    (({ type := ContentType.image, path := some "a.png", start_time := 0,
        end_time := 5, duration := 5, description := "",
        relevance_score := 1/2 } : Entry).start_time <
      ({ type := ContentType.image, path := some "a.png", start_time := 0,
         end_time := 5, duration := 5, description := "",
         relevance_score := 1/2 } : Entry).end_time ∧
     ({ type := ContentType.image, path := some "a.png", start_time := 0,
        end_time := 5, duration := 5, description := "",
        relevance_score := 1/2 } : Entry).duration =
      ({ type := ContentType.image, path := some "a.png", start_time := 0,
         end_time := 5, duration := 5, description := "",
         relevance_score := 1/2 } : Entry).end_time -
      ({ type := ContentType.image, path := some "a.png", start_time := 0,
         end_time := 5, duration := 5, description := "",
         relevance_score := 1/2 } : Entry).start_time) := by
  have hm :
      ({ type := ContentType.image, path := some "a.png", start_time := 0,
         end_time := 5, duration := 5, description := "",
         relevance_score := 1/2 } : Entry) ∈
      create_timeline
        [{ path := "a.png", timestamp := none, relevance_score := none,
           description := none }] [] 10 := by
    norm_num [create_timeline, sort_by_timestamp, all_content,
      default_image_duration, List.insertionSort, List.orderedInsert, tsle,
      timeline_step, fill_timeline_gaps, fill_step, max_def, min_def]
  exact ⟨hm, timeline_entries_positive_duration _ _ 10 _ hm⟩

theorem fill_step_gap_none (filled : List Entry) (cursor : ℚ) (s : Entry)
    (hgap : cursor < s.start_time) (hl : filled.getLast? = none) :
    fill_step (filled, cursor) s =
      ((filled ++ [background_entry cursor s.start_time]) ++ [s],
        s.end_time) := by
  simp only [fill_step, hl, if_pos hgap]

theorem fill_step_gap_some (filled : List Entry) (cursor : ℚ) (s last : Entry)
    (hgap : cursor < s.start_time) (hl : filled.getLast? = some last) :
    fill_step (filled, cursor) s =
      ((filled ++
        [{ last with
            start_time := cursor
            end_time := s.start_time
            duration := s.start_time - cursor }]) ++ [s], s.end_time) := by
  simp only [fill_step, hl, if_pos hgap]

theorem fill_step_nogap (filled : List Entry) (cursor : ℚ) (s : Entry)
    (hgap : ¬ cursor < s.start_time) :
    fill_step (filled, cursor) s = (filled ++ [s], s.end_time) := by
  simp only [fill_step, if_neg hgap]

theorem fill_fold_eq_claim (total : ℚ) :
    ∀ (rest filled : List Entry) (cursor : ℚ),
      filled ≠ [] ∨ rest ≠ [] →
      (if (rest.foldl fill_step (filled, cursor)).2 < total then
        match (rest.foldl fill_step (filled, cursor)).1.getLast? with
        | some last =>
            (rest.foldl fill_step (filled, cursor)).1 ++
              [{ last with
                  start_time := (rest.foldl fill_step (filled, cursor)).2
                  end_time := total
                  duration :=
                    total - (rest.foldl fill_step (filled, cursor)).2 }]
        | none => (rest.foldl fill_step (filled, cursor)).1
       else (rest.foldl fill_step (filled, cursor)).1) =
      filled ++ fill_gaps_claim_go total filled.getLast? cursor rest := by
  intro rest
  induction rest with
  | nil =>
      intro filled cursor hne
      simp only [List.foldl_nil, fill_gaps_claim_go]
      by_cases hlt : cursor < total
      · simp only [if_pos hlt]
        rcases hgl : filled.getLast? with _ | last
        · have hfe : filled = [] := List.getLast?_eq_none_iff.mp hgl
          exact absurd hfe (hne.resolve_right (fun h => absurd rfl h))
        · simp [filler_from]
      · simp only [if_neg hlt]
        simp
  | cons s ss ih =>
      intro filled cursor hne
      rw [List.foldl_cons]
      by_cases hgap : cursor < s.start_time
      · rcases hgl : filled.getLast? with _ | last
        · rw [fill_step_gap_none filled cursor s hgap hgl]
          refine Eq.trans (ih _ s.end_time (Or.inl ?_)) ?_
          · simp
          · rw [List.getLast?_concat]
            simp only [fill_gaps_claim_go]
            rw [if_pos hgap]
            simp [filler_from]
        · rw [fill_step_gap_some filled cursor s last hgap hgl]
          refine Eq.trans (ih _ s.end_time (Or.inl ?_)) ?_
          · simp
          · rw [List.getLast?_concat]
            simp only [fill_gaps_claim_go]
            rw [if_pos hgap]
            simp [filler_from]
      · rw [fill_step_nogap filled cursor s hgap]
        refine Eq.trans (ih _ s.end_time (Or.inl ?_)) ?_
        · simp
        · rw [List.getLast?_concat]
          simp only [fill_gaps_claim_go]
          rw [if_neg hgap]
          simp

/-- C2 counterexample: at the empty timeline with `totalDuration = 10 > 0`
the cursor (0) stays below `totalDuration`, yet `fill_timeline_gaps`
appends no trailing Background filler — it returns the empty list — while
the claimed behavior (`fill_gaps_claim`, transcribed from the claim's
words) produces a Background entry spanning `[0, 10]`. -/
theorem fill_timeline_gaps_empty_counterexample :
    fill_timeline_gaps [] 10 = [] ∧ (0 : ℚ) < 10 ∧
    fill_gaps_claim [] 10 = [background_entry 0 10] := by
  refine ⟨rfl, by decide, ?_⟩
  simp only [fill_gaps_claim, fill_gaps_claim_go]
  rw [if_pos (by norm_num : (0 : ℚ) < 10)]
  rfl

/-- C2 (amended): on every NON-EMPTY timeline the gap-closing pass
behaves exactly as the claim describes — every gap between the cursor and
the next entry's `start_time` is covered by a duplicate of the previous
real entry (same kind, path, description, relevance) with new
`start_time`/`end_time` spanning the gap, or by a Background entry with
no source path when no previous entry exists, and a final filler
duplicating the last entry is appended when the cursor is still below
`totalDuration`.  The amendment: on an EMPTY timeline the pass returns it
unchanged, so the claimed trailing Background filler is never produced
(see the counterexample). -/
theorem fill_timeline_gaps_eq_claim (timeline : List Entry) (total : ℚ)
    (hne : timeline ≠ []) :
    fill_timeline_gaps timeline total = fill_gaps_claim timeline total := by
  have h := fill_fold_eq_claim total timeline [] 0 (Or.inr hne)
  simp only [fill_timeline_gaps, if_neg hne]
  exact h

/-- Witness for C2 (amended) at a one-entry timeline inside `[0, 10]`:
both gap branches (leading Background, trailing duplicate) fire. -/
theorem fill_timeline_gaps_eq_claim_witness :
    fill_timeline_gaps
      [{ type := ContentType.image, path := some "A", start_time := 2,
         end_time := 5, duration := 3, description := "d",
         relevance_score := 1/2 }] 10 =
    fill_gaps_claim
      [{ type := ContentType.image, path := some "A", start_time := 2,
         end_time := 5, duration := 3, description := "d",
         relevance_score := 1/2 }] 10 :=
  fill_timeline_gaps_eq_claim _ 10 (by simp)

theorem filter_orderedInsert (t : ℚ) (c : Content) :
    ∀ L : List Content,
      (List.orderedInsert tsle c L).filter
        (fun x => decide (x.timestamp = t)) =
      if c.timestamp = t then
        c :: L.filter (fun x => decide (x.timestamp = t))
      else L.filter (fun x => decide (x.timestamp = t)) := by
  intro L
  induction L with
  | nil =>
      by_cases hct : c.timestamp = t <;>
        simp [List.orderedInsert, List.filter, hct]
  | cons d ds ih =>
      simp only [List.orderedInsert]
      by_cases hcd : tsle c d
      · rw [if_pos hcd]
        by_cases hct : c.timestamp = t <;>
          simp [List.filter_cons, hct]
      · rw [if_neg hcd]
        have hdc : d.timestamp < c.timestamp :=
          not_le.mp (fun h => hcd h)
        by_cases hct : c.timestamp = t
        · have hdt : ¬ d.timestamp = t := by
            intro h
            exact absurd (h.trans hct.symm) (ne_of_lt hdc)
          simp [List.filter_cons, hct, hdt, ih]
        · by_cases hdt : d.timestamp = t <;>
            simp [List.filter_cons, hct, hdt, ih]

theorem filter_sort_stable (l : List Content) (t : ℚ) :
    (sort_by_timestamp l).filter (fun x => decide (x.timestamp = t)) =
      l.filter (fun x => decide (x.timestamp = t)) := by
  induction l with
  | nil => rfl
  | cons c cs ih =>
      simp only [sort_by_timestamp, List.insertionSort] at ih ⊢
      rw [filter_orderedInsert]
      by_cases hct : c.timestamp = t <;>
        simp [List.filter_cons, hct, ih]

/-- C8: timeline building is deterministic — identical inputs to
`create_timeline` yield identical outputs — and the embedded stable sort
breaks timestamp ties by input order: filtering the sorted list down to
the placements with any single timestamp returns them exactly in input
order. -/
theorem create_timeline_deterministic_stable
    (visual_images visual_videos : List RawRecord) (total : ℚ) :
    create_timeline visual_images visual_videos total =
      create_timeline visual_images visual_videos total ∧
    ∀ (l : List Content) (t : ℚ),
      (sort_by_timestamp l).filter (fun x => decide (x.timestamp = t)) =
        l.filter (fun x => decide (x.timestamp = t)) :=
  ⟨rfl, fun l t => filter_sort_stable l t⟩

end PodcastIllustrator
